import Mathlib

/-!
Verification of the xgettext-js match-discovery and transformation engine
(`xgettext.js`), via a shallow embedding.

The external parser (acorn) is treated as a black box: the engine core is
modelled as a function of the parser's output, namely the syntax tree (with
source locations) together with the raw comments delivered to the `onComment`
hook in source order.  Everything the repository itself does — translator
comment filtering, tree traversal via `walk.simple` with a `CallExpression`
visitor, sequence-expression unwrapping, name resolution, comment
association, keyword normalization, match transformation, flattening — is
embedded faithfully below.
-/

namespace XGettextJS

/-- A source position as produced by acorn with `locations: true`:
`loc.start` carries a 1-based `line` and 0-based `column`. -/
structure Loc where
  line : Nat
  column : Nat
  deriving Repr, DecidableEq

/-- The JavaScript values the engine manipulates: literal values carried on
AST nodes, transform results, and the records the engine emits.  Plain
objects are modelled as association lists in insertion order, so Lean
equality on `JSValue` is JavaScript deep equality. -/
inductive JSValue where
  | undefined
  | null
  | bool (b : Bool)
  | num (n : Int)
  | str (s : String)
  | arr (elems : List JSValue)
  | obj (fields : List (String × JSValue))

/-- JavaScript truthiness (`Boolean(v)`), as used by `strings.filter( Boolean )`. -/
def JSValue.truthy : JSValue → Bool
  | .undefined => false
  | .null => false
  | .bool b => b
  | .num n => n != 0
  | .str s => s != ""
  | .arr _ => true
  | .obj _ => true

/-- lodash `_.isPlainObject`: true exactly for plain objects (not arrays,
not primitives, not null/undefined). -/
def JSValue.isPlainObject : JSValue → Bool
  | .obj _ => true
  | _ => false

/-- Property read on a record (first binding wins, as in a JS object where
keys are unique). -/
def JSValue.getField : JSValue → String → Option JSValue
  | .obj fields, k => fields.lookup k
  | _, _ => none

/-- The fragment of the acorn (ESTree) expression AST that the engine
inspects.  `other` stands for any further node kind (statements, function
bodies, operators, ...) with its child expressions, into which the walker
still descends. -/
inductive Expr where
  | identifier (name : String) (loc : Loc)
  | literal (value : JSValue) (loc : Loc)
  | member (obj : Expr) (property : Expr) (computed : Bool) (loc : Loc)
  | seq (expressions : List Expr) (loc : Loc)
  | call (callee : Expr) (arguments : List Expr) (loc : Loc)
  | other (children : List Expr) (loc : Loc)

/-- `node.value` — present (the literal's value) on `Literal` nodes,
`undefined` on every other node kind. -/
def Expr.value : Expr → JSValue
  | .literal v _ => v
  | _ => .undefined

/-- `node.name` — present on `Identifier` nodes, `undefined` otherwise
(in particular `undefined` on `Literal` nodes, which matters for computed
member access `obj["fn"]`). -/
def Expr.name : Expr → Option String
  | .identifier n _ => some n
  | _ => none

mutual
/-- `while ( 'SequenceExpression' === callee.type ) callee = _.last( callee.expressions );`
— unwrap a (possibly nested) comma/sequence expression to the last
expression of the innermost sequence.  A parser never produces an empty
`SequenceExpression`; the `seq [] loc` case is kept as the identity. -/
def unwrapSequence : Expr → Expr
  | .seq [] loc => .seq [] loc
  | .seq (e :: es) _ => unwrapLast e es
  | .identifier n l => .identifier n l
  | .literal v l => .literal v l
  | .member o p c l => .member o p c l
  | .call c a l => .call c a l
  | .other cs l => .other cs l
termination_by e => sizeOf e

/-- `_.last` of a nonempty expression list, continuing the unwrap loop on it. -/
def unwrapLast : Expr → List Expr → Expr
  | e, [] => unwrapSequence e
  | _, e' :: es => unwrapLast e' es
termination_by e es => sizeOf e + sizeOf es
end

/-- `var functionName = ( callee.property ) ? callee.property.name : callee.name;`
— a `MemberExpression` always has a (truthy) `property` node, so its
`property.name` is used; any other node contributes its own `name`. -/
def calleeName : Expr → Option String
  | .member _ property _ _ => property.name
  | e => e.name

mutual
/-- The `CallExpression` nodes of the tree, in the order acorn's
`walk.simple` fires the visitor on them: the base walker recurses into the
children first, then the node's own visitor runs, so calls are listed in
post-order (inner calls before the calls containing them).  The base walker
enters a member expression's property only when the access is computed. -/
def collectCalls : Expr → List Expr
  | .identifier _ _ => []
  | .literal _ _ => []
  | .member o p computed _ =>
      collectCalls o ++ (if computed then collectCalls p else [])
  | .seq es _ => collectCallsList es
  | .call c args l => collectCalls c ++ collectCallsList args ++ [.call c args l]
  | .other cs _ => collectCallsList cs

/-- Walk each child in order. -/
def collectCallsList : List Expr → List Expr
  | [] => []
  | e :: es => collectCalls e ++ collectCallsList es
end

/-- A translator comment collected by `_parseInput`: `value` is the comment
text with the prefix match removed and trimmed, `line` the comment's
starting line (the walk stores acorn's start location object and later reads
its `.line`; the embedding stores the line number directly). -/
structure TranslatorComment where
  value : String
  line : Nat
  deriving Repr, DecidableEq

/-- A discovered match, exactly the object `_discoverMatches` builds:
`{ arguments: node.arguments, keyword: functionName, line: node.loc.start.line }`
plus the optional `comment` assigned by the comment scan.  No column is
stored. -/
structure Match where
  arguments : List Expr
  keyword : String
  line : Nat
  comment : Option String

/-- The `_.each( parsedInput.comments, ... )` scan: every comment whose line
equals the call's start line, or the start line minus one, overwrites
`match.comment`, so the last qualifying comment in list order wins. -/
def findComment (comments : List TranslatorComment) (callLine : Nat) : Option String :=
  comments.foldl
    (fun acc c =>
      if callLine == c.line || callLine - 1 == c.line then some c.value else acc)
    none

/-- Whether the `CallExpression` visitor would accept this node: the
unwrapped callee resolves to a truthy name that is a registered keyword. -/
def isKeywordCall (keywordFunctions : List String) : Expr → Bool
  | .call callee _ _ =>
      match calleeName (unwrapSequence callee) with
      | some fn => fn != "" && keywordFunctions.contains fn
      | none => false
  | _ => false

/-- The body of the `CallExpression` visitor, for one node: resolve the
callee through sequence expressions, read its name, validate it, and build
the match with its comment. -/
def matchOfCall (keywordFunctions : List String) (comments : List TranslatorComment) :
    Expr → Option Match
  | .call callee args loc =>
      match calleeName (unwrapSequence callee) with
      | none => none
      | some fn =>
          if fn != "" && keywordFunctions.contains fn then
            some { arguments := args
                   keyword := fn
                   line := loc.line
                   comment := findComment comments loc.line }
          else none
  | _ => none

/-- `_discoverMatches`: run the visitor over every call expression in walk
order, collecting the matches it pushes. -/
def discoverMatches (keywordFunctions : List String)
    (comments : List TranslatorComment) (ast : Expr) : List Match :=
  (collectCalls ast).filterMap (matchOfCall keywordFunctions comments)

/-- A comment as delivered by the parser's `onComment` hook: its raw text
(delimiters excluded) and its starting line. -/
structure RawComment where
  text : String
  line : Nat
  deriving Repr, DecidableEq

/-- Drop the leading whitespace run, the `\s*` part of the comment regexp. -/
def stripWs : List Char → List Char
  | [] => []
  | c :: cs => if c.isWhitespace then stripWs cs else c :: cs

/-- Case-insensitive literal prefix removal: `some rest` when the prefix
matches at the front, `none` otherwise (the `i` flag of the regexp). -/
def stripPrefixCI : List Char → List Char → Option (List Char)
  | [], s => some s
  | _ :: _, [] => none
  | p :: ps, c :: cs => if p.toLower == c.toLower then stripPrefixCI ps cs else none

/-- JavaScript `String.prototype.trim`: drop leading and trailing
whitespace. -/
def trimChars (s : List Char) : List Char :=
  ((stripWs (stripWs s).reverse)).reverse

/-- The `onComment` callback body for one comment, for a configured prefix:
test the text against `^\s*<prefix>` case-insensitively; on a match, record
the text with the matched part removed and trimmed, under the comment's
starting line.  (The prefix is used verbatim in the regexp; the embedding
covers prefixes with no regexp metacharacters and no leading whitespace,
which makes `^\s*` maximal-munch.) -/
def processComment (commentPrefix : String) (c : RawComment) : Option TranslatorComment :=
  match stripPrefixCI commentPrefix.toList (stripWs c.text.toList) with
  | some rest => some { value := String.mk (trimChars rest), line := c.line }
  | none => none

/-- The comment side of `_parseInput`: when a `commentPrefix` is configured,
filter the comments the parser reports (in source order) down to translator
comments; when `commentPrefix` is `undefined`, no `onComment` hook is
installed and the comment list stays empty. -/
def collectComments (commentPrefix : Option String) (raw : List RawComment) :
    List TranslatorComment :=
  match commentPrefix with
  | none => []
  | some p => raw.filterMap (processComment p)

/-- A keyword configuration value: a transform function, or the numeric
shorthand for an argument position. -/
inductive KeywordValue where
  | num (n : Nat)
  | fn (transform : Match → JSValue)

/-- The transform `_normalizeKeyword` synthesizes for a numeric keyword
value: if the argument list has more than `argnum - 1` elements and that
argument's `value` is a string, return it; otherwise return `undefined`.
(The source computes `argnum - 1` in JS arithmetic; the embedding's `Nat`
subtraction agrees with it for every `argnum ≥ 1`, the documented 1-based
positions.) -/
def numericTransform (argnum : Nat) (m : Match) : JSValue :=
  let argumentPosition := argnum - 1
  match m.arguments[argumentPosition]? with
  | some arg =>
      match arg.value with
      | .str s => .str s
      | _ => .undefined
  | none => .undefined

/-- `_normalizeKeyword`: numbers become the synthesized positional
transform, functions pass through unchanged. -/
def normalizeKeyword : KeywordValue → (Match → JSValue)
  | .num n => numericTransform n
  | .fn t => t

/-- `_normalizeKeywords`: normalize every keyword value, keeping the keys. -/
def normalizeKeywords (keywords : List (String × KeywordValue)) :
    List (String × (Match → JSValue)) :=
  keywords.map fun p => (p.1, normalizeKeyword p.2)

/-- `this.options.keywords[ match.keyword ]` — property lookup on the
normalized keyword table.  Discovery only builds matches whose keyword is a
key of the table, so the `none` branch is unreachable on engine-produced
matches; it stands in for the `TypeError` JS would raise. -/
def lookupTransform (keywords : List (String × (Match → JSValue))) (name : String) :
    Match → JSValue :=
  match keywords.lookup name with
  | some t => t
  | none => fun _ => .undefined

/-- The object `_transformMatch` builds for one surviving string:
`{ string: string, line: match.line }`, extended with `comment` when the
match has one (JS property insertion order). -/
def recordOfString (m : Match) (s : JSValue) : JSValue :=
  .obj (("string", s) :: ("line", .num (m.line : Int)) ::
    (match m.comment with
     | some c => [("comment", .str c)]
     | none => []))

/-- `if ( ! ( strings instanceof Array ) ) strings = [ strings ];` -/
def castToArray : JSValue → List JSValue
  | .arr xs => xs
  | v => [v]

/-- `_transformMatch`: invoke the keyword's transform; return a plain-object
result verbatim; otherwise coerce to an array, drop falsy elements, and wrap
each survivor as `{ string, line }` plus the match's comment when present. -/
def transformMatch (transform : Match → JSValue) (m : Match) : JSValue :=
  let strings := transform m
  if strings.isPlainObject then strings
  else
    .arr (((castToArray strings).filter JSValue.truthy).map (recordOfString m))

/-- lodash `.flatten()`: splice array elements one level deep, keep
non-array elements as they are. -/
def flattenResults : List JSValue → List JSValue
  | [] => []
  | .arr xs :: rest => xs ++ flattenResults rest
  | v :: rest => v :: flattenResults rest

/-- The resolved engine configuration, after the defaults merge of the
constructor: the keyword table and the optional comment prefix
(`none` models an explicitly `undefined` prefix). -/
structure Options where
  keywords : List (String × KeywordValue)
  commentPrefix : Option String

/-- `XGettext.defaultOptions`: keyword `_` mapped to argument position 1,
comment prefix `"translators:"`. -/
def defaultOptions : Options :=
  { keywords := [("_", .num 1)], commentPrefix := some "translators:" }

/-- The parser's output for one input text: the AST and the comments
reported to `onComment` in source order.  The parser is the external
black box; the engine is a function of this data. -/
structure ParserOutput where
  ast : Expr
  rawComments : List RawComment

/-- `getMatches`: parse (comment filtering), discover, transform, flatten.
The keyword table is normalized at construction time and `keywordFunctions`
is its key list; both are inlined here as pure data flow. -/
def getMatches (opts : Options) (input : ParserOutput) : List JSValue :=
  let keywords := normalizeKeywords opts.keywords
  let keywordFunctions := keywords.map Prod.fst
  let comments := collectComments opts.commentPrefix input.rawComments
  let discovered := discoverMatches keywordFunctions comments input.ast
  flattenResults (discovered.map fun m => transformMatch (lookupTransform keywords m.keyword) m)

/-- An engine instance: its only instance state is the options record built
by the constructor (`this.options`). -/
structure Engine where
  options : Options

/-- State-passing embedding of the `getMatches` method: the body reads
`this.options` and assigns no instance field (`_parseInput` allocates a
fresh `comments` array per call, `_discoverMatches` a fresh `matches`
array), so the engine state comes back unchanged next to the result. -/
def Engine.getMatches (e : Engine) (input : ParserOutput) :
    Engine × List JSValue :=
  (e, XGettextJS.getMatches e.options input)

/-! ### Helper lemmas -/

/-- If no element of the list is accepted by `f`, `filterMap f` is empty. -/
theorem filterMap_of_filter_isSome_nil {α β : Type} (f : α → Option β) :
    ∀ l : List α, l.filter (fun x => (f x).isSome) = [] → l.filterMap f = [] := by
  intro l h
  induction l with
  | nil => rfl
  | cons x xs ih =>
    rw [List.filter_cons] at h
    by_cases hx : (f x).isSome
    · simp [hx] at h
    · rw [Option.not_isSome_iff_eq_none] at hx
      rw [List.filterMap_cons, hx]
      exact ih (by simpa [Option.not_isSome_iff_eq_none.mpr hx] using h)

/-- If exactly one element of the list is accepted by `f`, `filterMap f`
consists of its image alone. -/
theorem filterMap_of_filter_isSome_singleton {α β : Type} (f : α → Option β) :
    ∀ (l : List α) (a : α), l.filter (fun x => (f x).isSome) = [a] →
      l.filterMap f = (f a).toList := by
  intro l
  induction l with
  | nil => intro a h; simp at h
  | cons x xs ih =>
    intro a h
    rw [List.filter_cons] at h
    by_cases hx : (f x).isSome
    · simp only [hx, if_pos] at h
      obtain ⟨hxa, hrest⟩ := List.cons_eq_cons.mp h
      subst hxa
      obtain ⟨b, hb⟩ := Option.isSome_iff_exists.mp hx
      rw [List.filterMap_cons, hb, filterMap_of_filter_isSome_nil f xs hrest]
      rfl
    · simp only [hx, Bool.false_eq_true, if_neg, not_false_iff] at h
      rw [List.filterMap_cons, Option.not_isSome_iff_eq_none.mp hx]
      exact ih a (by simpa using h)

/-- Normalization keeps the key set of the keyword table. -/
theorem keys_normalizeKeywords (kws : List (String × KeywordValue)) :
    (normalizeKeywords kws).map Prod.fst = kws.map Prod.fst := by
  simp [normalizeKeywords]

/-- Lookup in the normalized table is the normalization of the lookup. -/
theorem lookup_normalizeKeywords (kws : List (String × KeywordValue)) (k : String) :
    (normalizeKeywords kws).lookup k = (kws.lookup k).map normalizeKeyword := by
  induction kws with
  | nil => rfl
  | cons p rest ih =>
    obtain ⟨k', v⟩ := p
    by_cases hk : k == k'
    · simp [normalizeKeywords, List.lookup, hk]
    · simpa [normalizeKeywords, List.lookup, hk] using ih

/-- The visitor produces a match exactly on the nodes `isKeywordCall`
accepts. -/
theorem matchOfCall_isSome (kws : List String) (cs : List TranslatorComment) :
    ∀ e : Expr, (matchOfCall kws cs e).isSome = isKeywordCall kws e := by
  intro e
  cases e with
  | call callee args loc =>
    simp only [matchOfCall, isKeywordCall]
    rcases hname : calleeName (unwrapSequence callee) with _ | fn
    · rfl
    · show (if (fn != "" && kws.contains fn) = true then
            some ({ arguments := args, keyword := fn, line := loc.line,
                    comment := findComment cs loc.line } : Match)
          else none).isSome = (fn != "" && kws.contains fn)
      cases hfn : (fn != "" && kws.contains fn) with
      | true => rw [if_pos rfl]; rfl
      | false => rw [if_neg (by simp)]; rfl
  | identifier n l => rfl
  | literal v l => rfl
  | member o p c l => rfl
  | seq es l => rfl
  | other cs' l => rfl

/-- Anatomy of a successful visitor run on a call node. -/
theorem matchOfCall_call_eq_some {kws : List String} {cs : List TranslatorComment}
    {callee : Expr} {args : List Expr} {loc : Loc} {m : Match}
    (h : matchOfCall kws cs (.call callee args loc) = some m) :
    ∃ fn, calleeName (unwrapSequence callee) = some fn ∧
      (fn != "" && kws.contains fn) = true ∧
      m = { arguments := args, keyword := fn, line := loc.line,
            comment := findComment cs loc.line } := by
  simp only [matchOfCall] at h
  split at h
  · exact absurd h (by simp)
  · next fn hname =>
    split at h
    · next hfn => exact ⟨fn, hname, hfn, (Option.some.inj h).symm⟩
    · exact absurd h (by simp)

/-- The comment scan's overriding fold keeps the last qualifying comment:
it equals the first qualifying comment of the reversed list, falling back
to the initial accumulator. -/
theorem foldl_comment_override (L : Nat) :
    ∀ (cs : List TranslatorComment) (init : Option String),
      cs.foldl (fun acc c => if L == c.line || L - 1 == c.line then some c.value else acc) init
      = match cs.reverse.find? (fun c => L == c.line || L - 1 == c.line) with
        | some c => some c.value
        | none => init := by
  intro cs
  induction cs using List.reverseRecOn with
  | nil => intro init; rfl
  | append_singleton l c ih =>
    intro init
    rw [List.foldl_append, List.foldl_cons, List.foldl_nil, List.reverse_append]
    by_cases hq : (L == c.line || L - 1 == c.line) = true
    · simp [hq]
    · simp only [hq, Bool.false_eq_true, if_neg, not_false_iff,
        List.reverse_cons, List.reverse_nil, List.nil_append, List.cons_append,
        List.find?_cons, hq]
      exact ih init

/-- `findComment` as a search from the back of the comment list. -/
theorem findComment_eq_find_reverse (cs : List TranslatorComment) (L : Nat) :
    findComment cs L
      = (cs.reverse.find? (fun c => L == c.line || L - 1 == c.line)).map
          TranslatorComment.value := by
  rw [findComment, foldl_comment_override]
  cases cs.reverse.find? (fun c => L == c.line || L - 1 == c.line) <;> rfl

/-- A comment is attached exactly when some collected comment sits on the
call's line or the line before it. -/
theorem findComment_isSome_iff (cs : List TranslatorComment) (L : Nat) :
    (findComment cs L).isSome ↔ ∃ c ∈ cs, L = c.line ∨ L - 1 = c.line := by
  rw [findComment_eq_find_reverse]
  simp [List.find?_isSome]

mutual
/-- Unwrapping is idempotent: the result of the unwrap loop is never a
nonempty sequence expression, so running the loop on it again is the
identity. -/
theorem unwrapSequence_idem : (e : Expr) →
    unwrapSequence (unwrapSequence e) = unwrapSequence e
  | .seq [] _ => by simp only [unwrapSequence]
  | .seq (e :: es) _ => by
      simp only [unwrapSequence]
      exact unwrapLast_idem e es
  | .identifier _ _ => by simp only [unwrapSequence]
  | .literal _ _ => by simp only [unwrapSequence]
  | .member _ _ _ _ => by simp only [unwrapSequence]
  | .call _ _ _ => by simp only [unwrapSequence]
  | .other _ _ => by simp only [unwrapSequence]
termination_by e => sizeOf e

/-- Companion of `unwrapSequence_idem` for the list helper. -/
theorem unwrapLast_idem : (e : Expr) → (es : List Expr) →
    unwrapSequence (unwrapLast e es) = unwrapLast e es
  | e, [] => by
      simp only [unwrapLast]
      exact unwrapSequence_idem e
  | _, e' :: es => by
      simp only [unwrapLast]
      exact unwrapLast_idem e' es
termination_by e es => sizeOf e + sizeOf es
end

/-- The helper of the unwrap loop lands on the last element of the list. -/
theorem unwrapLast_last : ∀ (es : List Expr) (e elast : Expr),
    unwrapLast e (es ++ [elast]) = unwrapSequence elast
  | [], e, elast => by simp only [List.nil_append, unwrapLast]
  | e' :: es, e, elast => by
      simp only [List.cons_append, unwrapLast]
      exact unwrapLast_last es e' elast

/-- Unwrapping a sequence expression resolves to its last expression,
recursively. -/
theorem unwrapSequence_seq_last (es : List Expr) (elast : Expr) (l : Loc) :
    unwrapSequence (.seq (es ++ [elast]) l) = unwrapSequence elast := by
  cases es with
  | nil => simp only [List.nil_append, unwrapSequence, unwrapLast]
  | cons e0 es' =>
    rw [List.cons_append]
    simp only [unwrapSequence]
    exact unwrapLast_last es' e0 elast

/-- `getMatches` with the constructor-computed tables spelled out. -/
theorem getMatches_eq (opts : Options) (input : ParserOutput) :
    getMatches opts input
      = flattenResults
          ((discoverMatches (opts.keywords.map Prod.fst)
              (collectComments opts.commentPrefix input.rawComments)
              input.ast).map
            (fun m => transformMatch
              (lookupTransform (normalizeKeywords opts.keywords) m.keyword) m)) := by
  simp only [getMatches, keys_normalizeKeywords]

/-- The attached comment value comes from a qualifying collected comment. -/
theorem findComment_eq_some (cs : List TranslatorComment) (L : Nat) (v : String)
    (h : findComment cs L = some v) :
    ∃ c ∈ cs, (L = c.line ∨ L - 1 = c.line) ∧ c.value = v := by
  rw [findComment_eq_find_reverse] at h
  obtain ⟨c, hc, hv⟩ := Option.map_eq_some'.mp h
  refine ⟨c, List.mem_reverse.mp (List.mem_of_find?_eq_some hc), ?_, hv⟩
  have := List.find?_some hc
  simpa using this

/-! ### Claims -/

/-- The numeric-1 transform on a match holding a single non-empty
string-literal argument produces exactly one record. -/
theorem transformMatch_numeric_one (m : Match) (s : String) (aloc : Loc)
    (hargs : m.arguments = [.literal (.str s) aloc]) (hs : s ≠ "") :
    transformMatch (numericTransform 1) m = .arr [recordOfString m (.str s)] := by
  have hnum : numericTransform 1 m = .str s := by
    simp [numericTransform, hargs, Expr.value]
  simp [transformMatch, hnum, JSValue.isPlainObject, castToArray,
    JSValue.truthy, hs]

/-- **C1** (amended): for a parsed input whose tree contains exactly one
call accepted by the keyword filter — a call to a keyword configured with
the numeric value 1, carrying a single *non-empty* string-literal
argument — `getMatches` returns exactly one record, whose `string` field is
that literal's value and whose `line` field is the call's start line. -/
theorem C1_single_keyword_call (opts : Options) (input : ParserOutput)
    (callee : Expr) (s : String) (aloc cl : Loc) (k : String)
    (hcalls : (collectCalls input.ast).filter
        (isKeywordCall (opts.keywords.map Prod.fst))
        = [.call callee [.literal (.str s) aloc] cl])
    (hname : calleeName (unwrapSequence callee) = some k)
    (hkw : opts.keywords.lookup k = some (.num 1))
    (hs : s ≠ "") :
    ∃ extra, getMatches opts input
      = [.obj (("string", .str s) :: ("line", .num (cl.line : Int)) :: extra)] := by
  have hmem : (Expr.call callee [.literal (.str s) aloc] cl)
      ∈ (collectCalls input.ast).filter
          (isKeywordCall (opts.keywords.map Prod.fst)) := by
    rw [hcalls]
    exact List.mem_singleton.mpr rfl
  have hkc : isKeywordCall (opts.keywords.map Prod.fst)
      (.call callee [.literal (.str s) aloc] cl) = true :=
    List.of_mem_filter hmem
  have hcond : (k != "" && (opts.keywords.map Prod.fst).contains k) = true := by
    simpa [isKeywordCall, hname] using hkc
  have hfilter : (collectCalls input.ast).filter
      (fun e => (matchOfCall (opts.keywords.map Prod.fst)
        (collectComments opts.commentPrefix input.rawComments) e).isSome)
      = [.call callee [.literal (.str s) aloc] cl] := by
    rw [funext (matchOfCall_isSome (opts.keywords.map Prod.fst)
      (collectComments opts.commentPrefix input.rawComments))]
    exact hcalls
  have hdisc : discoverMatches (opts.keywords.map Prod.fst)
      (collectComments opts.commentPrefix input.rawComments) input.ast
      = (matchOfCall (opts.keywords.map Prod.fst)
          (collectComments opts.commentPrefix input.rawComments)
          (.call callee [.literal (.str s) aloc] cl)).toList :=
    filterMap_of_filter_isSome_singleton _ _ _ hfilter
  have hmoc : matchOfCall (opts.keywords.map Prod.fst)
      (collectComments opts.commentPrefix input.rawComments)
      (.call callee [.literal (.str s) aloc] cl)
      = some { arguments := [.literal (.str s) aloc], keyword := k,
               line := cl.line,
               comment := findComment
                 (collectComments opts.commentPrefix input.rawComments)
                 cl.line } := by
    simp only [matchOfCall, hname]
    rw [if_pos hcond]
  have hlk : lookupTransform (normalizeKeywords opts.keywords) k
      = numericTransform 1 := by
    simp only [lookupTransform, lookup_normalizeKeywords, hkw, Option.map_some']
    rfl
  refine ⟨(match findComment
      (collectComments opts.commentPrefix input.rawComments) cl.line with
      | some c => [("comment", .str c)]
      | none => []), ?_⟩
  rw [getMatches_eq, hdisc, hmoc]
  simp only [Option.toList, List.map_cons, List.map_nil]
  rw [hlk, transformMatch_numeric_one _ s aloc rfl hs]
  simp only [flattenResults, recordOfString, List.append_nil]

/-- **C1** counterexample: `_( "" );` — a source with exactly one call to
the registered keyword `_` (configured with numeric value 1) whose single
argument is a string literal, for which `getMatches` returns no record at
all instead of exactly one: the empty-string value is removed by the falsy
filter. -/
theorem C1_counterexample :
    (collectCalls (.other
        [.call (.identifier "_" ⟨1, 0⟩) [.literal (.str "") ⟨1, 4⟩] ⟨1, 0⟩]
        ⟨1, 0⟩)).filter
      (isKeywordCall (defaultOptions.keywords.map Prod.fst))
      = [.call (.identifier "_" ⟨1, 0⟩) [.literal (.str "") ⟨1, 4⟩] ⟨1, 0⟩]
    ∧ defaultOptions.keywords.lookup "_" = some (.num 1)
    ∧ getMatches defaultOptions
        { ast := .other
            [.call (.identifier "_" ⟨1, 0⟩) [.literal (.str "") ⟨1, 4⟩] ⟨1, 0⟩]
            ⟨1, 0⟩,
          rawComments := [] }
      = [] := by
  refine ⟨?_, rfl, ?_⟩
  · simp [collectCalls, collectCallsList, isKeywordCall, unwrapSequence,
      calleeName, Expr.name, defaultOptions]
  · simp [getMatches, defaultOptions, normalizeKeywords, normalizeKeyword,
      discoverMatches, collectCalls, collectCallsList, matchOfCall,
      unwrapSequence, calleeName, Expr.name, isKeywordCall, collectComments,
      findComment, lookupTransform, transformMatch, numericTransform,
      Expr.value, JSValue.isPlainObject, castToArray, JSValue.truthy,
      flattenResults, recordOfString]

/-- **C1** witness: `_( "x" );` under the default configuration yields
exactly one record, `{ string: "x", line: 1 }`. -/
theorem C1_single_keyword_call_witness :
    ∃ extra, getMatches defaultOptions
        { ast := .other
            [.call (.identifier "_" ⟨1, 0⟩) [.literal (.str "x") ⟨1, 4⟩] ⟨1, 0⟩]
            ⟨1, 0⟩,
          rawComments := [] }
      = [.obj (("string", .str "x") :: ("line", .num ((⟨1, 0⟩ : Loc).line : Int)) :: extra)] :=
  C1_single_keyword_call defaultOptions
    { ast := .other
        [.call (.identifier "_" ⟨1, 0⟩) [.literal (.str "x") ⟨1, 4⟩] ⟨1, 0⟩]
        ⟨1, 0⟩,
      rawComments := [] }
    (.identifier "_" ⟨1, 0⟩) "x" ⟨1, 4⟩ ⟨1, 0⟩ "_"
    (by simp [collectCalls, collectCallsList, isKeywordCall, unwrapSequence,
      calleeName, Expr.name, defaultOptions])
    (by simp [unwrapSequence, calleeName, Expr.name])
    rfl
    (by decide)

/-- **C3**: a collected translator comment is attached to a match exactly
when its starting line is the call's start line or the start line minus
one; the attached value originates from a raw comment passing the
case-insensitive `^\s*<prefix>` test, with the matched part stripped and
the remainder trimmed; a raw comment failing the prefix test is never
collected, hence never attached. -/
theorem C3_comment_association
    (kws : List String) (pfx : String) (raw : List RawComment) (ast : Expr)
    (m : Match)
    (hm : m ∈ discoverMatches kws (collectComments (some pfx) raw) ast) :
    (m.comment.isSome ↔ ∃ c ∈ collectComments (some pfx) raw,
        m.line = c.line ∨ m.line - 1 = c.line)
    ∧ (∀ v, m.comment = some v → ∃ c ∈ collectComments (some pfx) raw,
        (m.line = c.line ∨ m.line - 1 = c.line) ∧ c.value = v)
    ∧ (∀ c ∈ collectComments (some pfx) raw, ∃ rc ∈ raw, ∃ rest,
        rc.line = c.line
        ∧ stripPrefixCI pfx.toList (stripWs rc.text.toList) = some rest
        ∧ c.value = String.mk (trimChars rest))
    ∧ (∀ rc : RawComment,
        stripPrefixCI pfx.toList (stripWs rc.text.toList) = none →
        processComment pfx rc = none) := by
  have hcomment :
      m.comment = findComment (collectComments (some pfx) raw) m.line := by
    obtain ⟨e, _, hme⟩ := List.mem_filterMap.mp hm
    cases e with
    | call callee args loc =>
      obtain ⟨fn, _, _, hmeq⟩ := matchOfCall_call_eq_some hme
      subst hmeq
      rfl
    | identifier n l => simp [matchOfCall] at hme
    | literal v l => simp [matchOfCall] at hme
    | member o p c l => simp [matchOfCall] at hme
    | seq es l => simp [matchOfCall] at hme
    | other cs l => simp [matchOfCall] at hme
  refine ⟨?_, ?_, ?_, ?_⟩
  · rw [hcomment]
    exact findComment_isSome_iff _ _
  · intro v hv
    exact findComment_eq_some _ _ v (hcomment ▸ hv)
  · intro c hc
    simp only [collectComments] at hc
    obtain ⟨rc, hrc, hp⟩ := List.mem_filterMap.mp hc
    refine ⟨rc, hrc, ?_⟩
    simp only [processComment] at hp
    split at hp
    · next rest heq =>
      obtain hcval := Option.some.inj hp
      exact ⟨rest, by rw [← hcval], heq, by rw [← hcval]⟩
    · exact absurd hp (by simp)
  · intro rc hnone
    simp only [processComment]
    rw [hnone]

/-- **C3** witness: with prefix `"translators:"`, the raw comment
`" translators: hi"` on line 1 qualifies for the call on line 2, and all
four parts of the association property hold for the resulting match. -/
theorem C3_comment_association_witness :
    ((some "hi" : Option String).isSome ↔
      ∃ c ∈ collectComments (some "translators:") [⟨" translators: hi", 1⟩],
        ({ arguments := [], keyword := "_", line := 2, comment := some "hi" } : Match).line = c.line
        ∨ ({ arguments := [], keyword := "_", line := 2, comment := some "hi" } : Match).line - 1 = c.line)
    ∧ (∀ v, (some "hi" : Option String) = some v →
        ∃ c ∈ collectComments (some "translators:") [⟨" translators: hi", 1⟩],
          (({ arguments := [], keyword := "_", line := 2, comment := some "hi" } : Match).line = c.line
            ∨ ({ arguments := [], keyword := "_", line := 2, comment := some "hi" } : Match).line - 1 = c.line)
          ∧ c.value = v)
    ∧ (∀ c ∈ collectComments (some "translators:") [⟨" translators: hi", 1⟩],
        ∃ rc ∈ ([⟨" translators: hi", 1⟩] : List RawComment), ∃ rest,
          rc.line = c.line
          ∧ stripPrefixCI "translators:".toList (stripWs rc.text.toList) = some rest
          ∧ c.value = String.mk (trimChars rest))
    ∧ (∀ rc : RawComment,
        stripPrefixCI "translators:".toList (stripWs rc.text.toList) = none →
        processComment "translators:" rc = none) :=
  C3_comment_association ["_"] "translators:" [⟨" translators: hi", 1⟩]
    (.call (.identifier "_" ⟨2, 0⟩) [] ⟨2, 0⟩)
    { arguments := [], keyword := "_", line := 2, comment := some "hi" }
    (by simp [discoverMatches, collectCalls, matchOfCall, unwrapSequence,
      calleeName, Expr.name, collectComments, processComment, stripPrefixCI,
      stripWs, trimChars, findComment])

/-- **C4**: a call whose callee is wrapped in (arbitrarily nested)
comma/sequence expressions resolves to the last expression of the innermost
sequence, and produces exactly the same match — same keyword, arguments,
line and comment — as the corresponding direct call on the resolved
callee. -/
theorem C4_sequence_indirection :
    (∀ (kws : List String) (cs : List TranslatorComment) (callee : Expr)
        (args : List Expr) (loc : Loc),
        matchOfCall kws cs (.call callee args loc)
          = matchOfCall kws cs (.call (unwrapSequence callee) args loc))
    ∧ (∀ (es : List Expr) (elast : Expr) (l : Loc),
        unwrapSequence (.seq (es ++ [elast]) l) = unwrapSequence elast) := by
  constructor
  · intro kws cs callee args loc
    simp only [matchOfCall, unwrapSequence_idem]
  · exact unwrapSequence_seq_last

/-- **C5**: a transform result that is a plain (structured) object — not a
string, not an array — is returned by `_transformMatch` verbatim, skipping
the cast/filter/normalize pipeline, and the final flatten keeps it in place
at that match's position in the output list. -/
theorem C5_object_escape_hatch :
    (∀ (t : Match → JSValue) (m : Match) (fields : List (String × JSValue)),
        t m = .obj fields → transformMatch t m = .obj fields)
    ∧ (∀ (pre post : List JSValue) (fields : List (String × JSValue)),
        flattenResults (pre ++ .obj fields :: post)
          = flattenResults pre ++ .obj fields :: flattenResults post) := by
  constructor
  · intro t m fields ht
    simp [transformMatch, ht, JSValue.isPlainObject]
  · intro pre post fields
    induction pre with
    | nil => simp [flattenResults]
    | cons v rest ih =>
      cases v <;> simp [flattenResults, ih, List.append_assoc]

/-- **C5** witness: a transform returning `{ isOkay: true }` passes the
object through untouched, and the flatten keeps it in position. -/
theorem C5_object_escape_hatch_witness :
    transformMatch (fun _ => .obj [("isOkay", .bool true)])
        { arguments := [], keyword := "_", line := 1, comment := none }
      = .obj [("isOkay", .bool true)]
    ∧ flattenResults ([.arr []] ++ .obj [("isOkay", .bool true)] :: [.arr []])
      = flattenResults [.arr []]
        ++ .obj [("isOkay", .bool true)] :: flattenResults [.arr []] :=
  ⟨C5_object_escape_hatch.1 _ _ [("isOkay", .bool true)] rfl,
   C5_object_escape_hatch.2 [.arr []] [.arr []] [("isOkay", .bool true)]⟩

/-- **C6**: a falsy transform result yields no record; an array result has
all its falsy elements discarded, so an all-falsy array yields no record
either; and every record built on the normalized path carries a truthy
`string` field. -/
theorem C6_falsy_filtering :
    (∀ (t : Match → JSValue) (m : Match),
        (t m).truthy = false → transformMatch t m = .arr [])
    ∧ (∀ (t : Match → JSValue) (m : Match) (xs : List JSValue),
        t m = .arr xs → (∀ x ∈ xs, x.truthy = false) →
        transformMatch t m = .arr [])
    ∧ (∀ (t : Match → JSValue) (m : Match) (rs : List JSValue),
        transformMatch t m = .arr rs →
        ∀ r ∈ rs, ∃ v, r.getField "string" = some v ∧ v.truthy = true) := by
  refine ⟨?_, ?_, ?_⟩
  · intro t m h
    cases htm : t m with
    | undefined => simp [transformMatch, htm, JSValue.isPlainObject, castToArray,
        JSValue.truthy]
    | null => simp [transformMatch, htm, JSValue.isPlainObject, castToArray,
        JSValue.truthy]
    | bool b =>
      rw [htm] at h
      simp only [JSValue.truthy] at h
      simp [transformMatch, htm, JSValue.isPlainObject, castToArray,
        JSValue.truthy, h]
    | num n =>
      rw [htm] at h
      simp only [JSValue.truthy] at h
      simp [transformMatch, htm, JSValue.isPlainObject, castToArray,
        JSValue.truthy, h]
    | str s =>
      rw [htm] at h
      simp only [JSValue.truthy] at h
      simp [transformMatch, htm, JSValue.isPlainObject, castToArray,
        JSValue.truthy, h]
    | arr xs => rw [htm] at h; simp [JSValue.truthy] at h
    | obj fields => rw [htm] at h; simp [JSValue.truthy] at h
  · intro t m xs ht hall
    have hfil : xs.filter JSValue.truthy = [] :=
      List.filter_eq_nil_iff.mpr fun x hx => by simp [hall x hx]
    simp [transformMatch, ht, JSValue.isPlainObject, castToArray, hfil]
  · intro t m rs htr r hr
    simp only [transformMatch] at htr
    split at htr
    · next hobj =>
      rw [htr] at hobj
      simp [JSValue.isPlainObject] at hobj
    · obtain hrs := JSValue.arr.inj htr
      rw [← hrs] at hr
      obtain ⟨sv, hsmem, hseq⟩ := List.mem_map.mp hr
      have hst : sv.truthy = true := (List.mem_filter.mp hsmem).2
      refine ⟨sv, ?_, hst⟩
      rw [← hseq]
      simp [recordOfString, JSValue.getField, List.lookup]

/-- **C6** witness: an empty-string result and an all-falsy array result
both yield zero records, and the record built for a truthy string carries
it as a truthy `string` field. -/
theorem C6_falsy_filtering_witness :
    transformMatch (fun _ => .str "")
        { arguments := [], keyword := "_", line := 1, comment := none } = .arr []
    ∧ transformMatch (fun _ => .arr [.str "", .bool false])
        { arguments := [], keyword := "_", line := 1, comment := none } = .arr []
    ∧ ∃ v, (JSValue.obj [("string", .str "ok"), ("line", .num 1)]).getField "string"
          = some v ∧ v.truthy = true := by
  refine ⟨?_, ?_, ?_⟩
  · exact C6_falsy_filtering.1 _ _ rfl
  · exact C6_falsy_filtering.2.1 _ _ [.str "", .bool false] rfl
      (by intro x hx; simp only [List.mem_cons, List.not_mem_nil, or_false] at hx; rcases hx with rfl | rfl <;> simp [JSValue.truthy])
  · exact C6_falsy_filtering.2.2 (fun _ => .arr [.str "ok"])
      { arguments := [], keyword := "_", line := 1, comment := none }
      [.obj [("string", .str "ok"), ("line", .num 1)]]
      (by simp [transformMatch, JSValue.isPlainObject, castToArray,
        JSValue.truthy, recordOfString])
      _ (by simp)

/-- **C2** (amended): for a keyword configured with a positive integer `N`
and a discovered match, if the argument list has more than `N - 1` elements
and the `N`th (1-based) argument is a string literal, the synthesized
transform returns that literal's string value — yielding one record when
the value is non-empty and zero records when it is the empty string (the
falsy filter drops it); otherwise the transform returns nothing and the
match yields zero records. -/
theorem C2_numeric_keyword (N : Nat) (_hN : 1 ≤ N) (m : Match) :
    (∀ (arg : Expr) (s : String), m.arguments[N - 1]? = some arg →
        arg.value = .str s →
        numericTransform N m = .str s
        ∧ (s ≠ "" → transformMatch (numericTransform N) m
            = .arr [recordOfString m (.str s)])
        ∧ (s = "" → transformMatch (numericTransform N) m = .arr []))
    ∧ ((∀ arg, m.arguments[N - 1]? = some arg → ∀ s, arg.value ≠ .str s) →
        numericTransform N m = .undefined
        ∧ transformMatch (numericTransform N) m = .arr []) := by
  constructor
  · intro arg s hget hval
    have hnum : numericTransform N m = .str s := by
      simp [numericTransform, hget, hval]
    refine ⟨hnum, ?_, ?_⟩
    · intro hs
      simp [transformMatch, hnum, JSValue.isPlainObject, castToArray,
        JSValue.truthy, hs]
    · intro hs
      subst hs
      simp [transformMatch, hnum, JSValue.isPlainObject, castToArray,
        JSValue.truthy]
  · intro hno
    have hnum : numericTransform N m = .undefined := by
      cases hget : m.arguments[N - 1]? with
      | none => simp [numericTransform, hget]
      | some arg =>
        cases harg : arg.value with
        | str s => exact absurd harg (hno arg hget s)
        | undefined => simp [numericTransform, hget, harg]
        | null => simp [numericTransform, hget, harg]
        | bool b => simp [numericTransform, hget, harg]
        | num n => simp [numericTransform, hget, harg]
        | arr xs => simp [numericTransform, hget, harg]
        | obj fs => simp [numericTransform, hget, harg]
    simp [transformMatch, hnum, JSValue.isPlainObject, castToArray,
      JSValue.truthy]

/-- **C2** counterexample: keyword value 1, call `_( "" )` — the first
argument is a string literal, and the synthesized transform does return its
string value, yet the match yields zero records, not one: the empty string
is dropped by the falsy filter. -/
theorem C2_counterexample :
    numericTransform 1
        { arguments := [.literal (.str "") ⟨1, 3⟩], keyword := "_", line := 1,
          comment := none } = .str ""
    ∧ transformMatch (numericTransform 1)
        { arguments := [.literal (.str "") ⟨1, 3⟩], keyword := "_", line := 1,
          comment := none } = .arr [] := by
  constructor
  · simp [numericTransform, Expr.value]
  · simp [transformMatch, numericTransform, Expr.value, JSValue.isPlainObject,
      castToArray, JSValue.truthy]

/-- **C2** witness: keyword value 1 on a match whose first argument is the
literal `"x"` returns `"x"` and yields exactly one record. -/
theorem C2_numeric_keyword_witness :
    numericTransform 1
        { arguments := [.literal (.str "x") ⟨1, 3⟩], keyword := "_", line := 1,
          comment := none } = .str "x"
    ∧ transformMatch (numericTransform 1)
        { arguments := [.literal (.str "x") ⟨1, 3⟩], keyword := "_", line := 1,
          comment := none }
      = .arr [recordOfString
          { arguments := [.literal (.str "x") ⟨1, 3⟩], keyword := "_", line := 1,
            comment := none } (.str "x")] := by
  have h := (C2_numeric_keyword 1 (by decide)
      { arguments := [.literal (.str "x") ⟨1, 3⟩], keyword := "_", line := 1,
        comment := none }).1 (.literal (.str "x") ⟨1, 3⟩) "x" rfl rfl
  exact ⟨h.1, h.2.1 (by decide)⟩

/-- **C7** counterexample: two calls identical except for their start
columns produce identical matches — the discoverer stores the call's start
line, arguments and keyword, but not its start column. -/
theorem C7_counterexample :
    discoverMatches ["_"] []
        (.call (.identifier "_" ⟨1, 0⟩) [.literal (.str "x") ⟨1, 4⟩] ⟨1, 0⟩)
      = discoverMatches ["_"] []
        (.call (.identifier "_" ⟨1, 0⟩) [.literal (.str "x") ⟨1, 4⟩] ⟨1, 5⟩) := by
  simp [discoverMatches, collectCalls, collectCallsList, matchOfCall,
    unwrapSequence, calleeName, Expr.name, findComment]

/-- **C7** (amended): every match the discoverer constructs records the
call's argument list, the resolved keyword name (registered in the keyword
set) and the call's start line; the start column is not captured — the same
match results whatever the call's start column. -/
theorem C7_match_fields (kws : List String) (cs : List TranslatorComment)
    (callee : Expr) (args : List Expr) (loc : Loc) (m : Match)
    (h : matchOfCall kws cs (.call callee args loc) = some m) :
    m.arguments = args ∧ m.line = loc.line
    ∧ calleeName (unwrapSequence callee) = some m.keyword
    ∧ kws.contains m.keyword = true
    ∧ ∀ col : Nat,
        matchOfCall kws cs (.call callee args ⟨loc.line, col⟩) = some m := by
  obtain ⟨fn, hname, hcond, hm⟩ := matchOfCall_call_eq_some h
  subst hm
  refine ⟨rfl, rfl, hname, (Bool.and_eq_true _ _ ▸ hcond).2, ?_⟩
  intro col
  simp only [matchOfCall, hname]
  rw [if_pos hcond]

/-- **C7** witness: a call to `_` at line 3, column 7 yields a match whose
`line` is 3, whose arguments and keyword are the call's, and which is
unchanged under any other start column. -/
theorem C7_match_fields_witness :
    (({ arguments := [], keyword := "_", line := 3, comment := none } : Match).arguments = []
      ∧ ({ arguments := [], keyword := "_", line := 3, comment := none } : Match).line = (⟨3, 7⟩ : Loc).line
      ∧ calleeName (unwrapSequence (.identifier "_" ⟨3, 7⟩))
          = some ({ arguments := [], keyword := "_", line := 3, comment := none } : Match).keyword
      ∧ (["_"] : List String).contains
          ({ arguments := [], keyword := "_", line := 3, comment := none } : Match).keyword = true
      ∧ ∀ col : Nat, matchOfCall ["_"] [] (.call (.identifier "_" ⟨3, 7⟩) [] ⟨(⟨3, 7⟩ : Loc).line, col⟩)
          = some { arguments := [], keyword := "_", line := 3, comment := none }) :=
  C7_match_fields ["_"] [] (.identifier "_" ⟨3, 7⟩) [] ⟨3, 7⟩
    { arguments := [], keyword := "_", line := 3, comment := none }
    (by simp [matchOfCall, unwrapSequence, calleeName, Expr.name, findComment])

/-- **C8**: the comment attached to a match is the last qualifying comment
in comment discovery order (equivalently: the first qualifying one scanning
the collected list from the back), not necessarily the closest by line. -/
theorem C8_last_comment_wins (kws : List String) (cs : List TranslatorComment)
    (callee : Expr) (args : List Expr) (loc : Loc) (m : Match)
    (h : matchOfCall kws cs (.call callee args loc) = some m) :
    m.comment
      = (cs.reverse.find?
          (fun tc => loc.line == tc.line || loc.line - 1 == tc.line)).map
          TranslatorComment.value := by
  obtain ⟨fn, _, _, hm⟩ := matchOfCall_call_eq_some h
  rw [hm]
  exact findComment_eq_find_reverse cs loc.line

/-- **C8** witness: with a qualifying comment on the preceding line and a
qualifying comment on the call line, in that discovery order, the call at
line 2 gets the later-scanned one (`"b"`). -/
theorem C8_last_comment_wins_witness :
    (matchOfCall ["_"] [⟨"a", 1⟩, ⟨"b", 2⟩] (.call (.identifier "_" ⟨2, 0⟩) [] ⟨2, 0⟩)
      = some { arguments := [], keyword := "_", line := 2,
               comment := findComment [⟨"a", 1⟩, ⟨"b", 2⟩] 2 })
    ∧ (findComment [⟨"a", 1⟩, ⟨"b", 2⟩] 2 : Option String)
      = (([⟨"a", 1⟩, ⟨"b", 2⟩] : List TranslatorComment).reverse.find?
          (fun tc => 2 == tc.line || 2 - 1 == tc.line)).map TranslatorComment.value
    ∧ (findComment [⟨"a", 1⟩, ⟨"b", 2⟩] 2 : Option String) = some "b" := by
  refine ⟨?h, ?_, ?_⟩
  case h => simp [matchOfCall, unwrapSequence, calleeName, Expr.name]
  · exact C8_last_comment_wins ["_"] [⟨"a", 1⟩, ⟨"b", 2⟩] (.identifier "_" ⟨2, 0⟩) [] ⟨2, 0⟩
      { arguments := [], keyword := "_", line := 2,
        comment := findComment [⟨"a", 1⟩, ⟨"b", 2⟩] 2 }
      (by simp [matchOfCall, unwrapSequence, calleeName, Expr.name])
  · simp [findComment]

/-- **C9**: `getMatches` is a pure function of the engine configuration and
the parsed input: a call leaves the engine state untouched, repeated calls
on the same instance — with a different input in between — return
deep-equal output for equal input, and the result coincides with the
stateless function of `(options, input)`. -/
theorem C9_extract_pure (e : Engine) (i₁ i₂ : ParserOutput) :
    ((e.getMatches i₁).1 = e)
    ∧ ((((((e.getMatches i₁).1).getMatches i₂).1).getMatches i₁).2
        = (e.getMatches i₁).2)
    ∧ ((e.getMatches i₁).2 = getMatches e.options i₁) :=
  ⟨rfl, rfl, rfl⟩

/-- **C10**: a call through computed member access whose property is a
non-identifier node — here a string literal, as in `obj["fn"]("x")` — never
produces a match, even when the property's string value is a registered
keyword name: name resolution reads `callee.property.name`, which is
`undefined` on a `Literal` node. -/
theorem C10_computed_member_no_match
    (kws : List String) (cs : List TranslatorComment) (objExpr : Expr)
    (fn : String) (lloc mloc cloc : Loc) (args : List Expr) :
    matchOfCall kws cs
      (.call (.member objExpr (.literal (.str fn) lloc) true mloc) args cloc)
      = none := by
  simp [matchOfCall, unwrapSequence, calleeName, Expr.name]

end XGettextJS
